import Mathlib

/-!
Verification of `tensorflow/compiler/xla/python/py_executable.cc`.

We shallowly embed the file's data model and operations:
* the intrusive doubly-linked registry of live `PyExecutable`s rooted at the
  owning client (`PyExecutable::PyExecutable` registers at the head,
  `PyExecutable::~PyExecutable` unregisters, patching neighbour links);
* the derivation of `ExecuteOptions` from the optional fingerprint;
* the three execution entry points (`PjRtExecute`, `Execute`,
  `ExecuteOnLocalDevices`) with the execution engine abstracted as a function
  argument, and the buffer bridge (`absl::c_transform` over `PyBuffer*`);
* `LocalDevices`.

Executables, native buffers, devices, clients and traceback tokens are
identified by natural numbers; the heap of live registry nodes is an
association list from executable id to its `prev_`/`next_` links.
-/

namespace Xla

/-- The two intrusive registry links of a `PyExecutable`
(`prev_` and `next_` in the C++ source); `none` models `nullptr`. -/
structure Node where
  prev : Option Nat
  next : Option Nat
  deriving Repr, DecidableEq

/-- A client's registry: the head pointer `client_->executables_` plus the heap
of live nodes, keyed by executable id. -/
structure RegState where
  head : Option Nat
  nodes : List (Nat × Node)
  deriving Repr, DecidableEq

/-- Heap read: the `prev_`/`next_` fields of executable `e`. -/
def lookupNodes (e : Nat) : List (Nat × Node) → Option Node
  | [] => none
  | (k, n) :: rest => if k = e then some n else lookupNodes e rest

/-- Heap write `k->prev_ = v` (first entry with key `k`). -/
def setPrev (k : Nat) (v : Option Nat) : List (Nat × Node) → List (Nat × Node)
  | [] => []
  | (k2, n) :: rest =>
    if k2 = k then (k2, { n with prev := v }) :: rest else (k2, n) :: setPrev k v rest

/-- Heap write `k->next_ = v` (first entry with key `k`). -/
def setNext (k : Nat) (v : Option Nat) : List (Nat × Node) → List (Nat × Node)
  | [] => []
  | (k2, n) :: rest =>
    if k2 = k then (k2, { n with next := v }) :: rest else (k2, n) :: setNext k v rest

/-- Remove the entry of key `k` (the node dies with its object). -/
def eraseKey (k : Nat) : List (Nat × Node) → List (Nat × Node)
  | [] => []
  | (k2, n) :: rest => if k2 = k then rest else (k2, n) :: eraseKey k rest

/-- Registration, from `PyExecutable::PyExecutable` (py_executable.cc:33-39):
`next_ = client_->executables_; client_->executables_ = this; prev_ = nullptr;
if (next_) next_->prev_ = this;`. -/
def regist (e : Nat) (s : RegState) : RegState :=
  let nodes1 :=
    match s.head with
    | some h => setPrev h (some e) s.nodes
    | none => s.nodes
  { head := some e, nodes := (e, ⟨none, s.head⟩) :: nodes1 }

/-- The destructor's `if (prev_) prev_->next_ = next_;` for the dying node `n`. -/
def patchNextOfPrev (n : Node) (nodes : List (Nat × Node)) : List (Nat × Node) :=
  match n.prev with
  | some p => setNext p n.next nodes
  | none => nodes

/-- The destructor's `if (next_) next_->prev_ = prev_;` for the dying node `n`. -/
def patchPrevOfNext (n : Node) (nodes : List (Nat × Node)) : List (Nat × Node) :=
  match n.next with
  | some q => setPrev q n.prev nodes
  | none => nodes

/-- Unregistration, from `PyExecutable::~PyExecutable` (py_executable.cc:48-59):
`if (client_->executables_ == this) client_->executables_ = next_;
if (prev_) prev_->next_ = next_; if (next_) next_->prev_ = prev_;`
followed by the death of the node itself. -/
def unregist (e : Nat) (s : RegState) : RegState :=
  match lookupNodes e s.nodes with
  | none => s
  | some n =>
    { head := if s.head = some e then n.next else s.head,
      nodes := eraseKey e (patchPrevOfNext n (patchNextOfPrev n s.nodes)) }

/-- A fresh client's registry: `executables_ = nullptr`, empty heap. -/
def initState : RegState := { head := none, nodes := [] }

/-- `altHead l nx` is the head of `l`, or `nx` when `l` is empty: the `next`
pointer of a node whose list suffix is `l` and whose successor beyond the
segment is `nx`. -/
def altHead (l : List Nat) (nx : Option Nat) : Option Nat :=
  match l with
  | [] => nx
  | q :: _ => some q

/-- `seedAfter p l` is the last element of `l` (as `some`), or `p` when `l` is
empty: the `prev` seed for whatever follows the segment `l`. -/
def seedAfter (p : Option Nat) : List Nat → Option Nat
  | [] => p
  | a :: rest => seedAfter (some a) rest

/-- The canonical heap segment for the id list `l`, given the `prev` seed `p`
(the id just before the segment) and `nx` (the id just after it). Each element
points back at its predecessor and forward at its successor. -/
def mkSeg (p : Option Nat) (l : List Nat) (nx : Option Nat) : List (Nat × Node) :=
  match l with
  | [] => []
  | a :: rest => (a, ⟨p, altHead rest nx⟩) :: mkSeg (some a) rest nx

/-- The canonical registry state whose head-to-tail list of ids is `l`. -/
def repList (l : List Nat) : RegState :=
  { head := altHead l none, nodes := mkSeg none l none }

/-- The keys (live executable ids) of a heap. -/
def keysOf (nodes : List (Nat × Node)) : List Nat := nodes.map Prod.fst

/-- Forward traversal: follow `next` from a starting pointer, with fuel. -/
def traverseNextAux (nodes : List (Nat × Node)) : Nat → Option Nat → List Nat
  | 0, _ => []
  | _ + 1, none => []
  | fuel + 1, some x =>
    match lookupNodes x nodes with
    | some n => x :: traverseNextAux nodes fuel n.next
    | none => [x]

/-- Backward traversal: follow `prev` from a starting pointer, with fuel. -/
def traversePrevAux (nodes : List (Nat × Node)) : Nat → Option Nat → List Nat
  | 0, _ => []
  | _ + 1, none => []
  | fuel + 1, some x =>
    match lookupNodes x nodes with
    | some n => x :: traversePrevAux nodes fuel n.prev
    | none => [x]

/-- Read the registry head-to-tail via `next` links. -/
def RegState.toListFwd (s : RegState) : List Nat :=
  traverseNextAux s.nodes s.nodes.length s.head

/-- Read the registry from the tail-most node via `prev` links. -/
def RegState.toListBwd (s : RegState) : List Nat :=
  traversePrevAux s.nodes s.nodes.length s.toListFwd.getLast?

/-- A registry operation: an executable's construction or destruction. -/
inductive Op where
  | reg (e : Nat) : Op
  | unreg (e : Nat) : Op
  deriving Repr, DecidableEq

/-- Apply one operation to a client's registry. -/
def applyOp (s : RegState) : Op → RegState
  | Op.reg e => regist e s
  | Op.unreg e => unregist e s

/-- Apply a sequence of operations, left to right. -/
def applyOps (ops : List Op) (s : RegState) : RegState := ops.foldl applyOp s

/-- The abstract model of one operation on the live list (most-recent first). -/
def modelStep (m : List Nat) : Op → List Nat
  | Op.reg e => e :: m
  | Op.unreg e => m.erase e

/-- The abstract model of a sequence of operations. -/
def modelRun (m : List Nat) (ops : List Op) : List Nat := ops.foldl modelStep m

/-- Well-formed operation sequence against model `m`: each construction is of a
fresh id, each destruction of a live one (the C++ contract: each object is
constructed once and destroyed once). -/
def wfOps (m : List Nat) : List Op → Bool
  | [] => true
  | Op.reg e :: ops => !(m.contains e) && wfOps (e :: m) ops
  | Op.unreg e :: ops => m.contains e && wfOps (m.erase e) ops

/-! ### Basic lemmas about heap segments -/

theorem keysOf_mkSeg (p : Option Nat) (l : List Nat) (nx : Option Nat) :
    keysOf (mkSeg p l nx) = l := by
  induction l generalizing p with
  | nil => rfl
  | cons a rest ih => simp only [mkSeg, keysOf, List.map_cons]; rw [← keysOf, ih]

theorem keysOf_append (A B : List (Nat × Node)) :
    keysOf (A ++ B) = keysOf A ++ keysOf B := List.map_append _ _ _

theorem length_mkSeg (p : Option Nat) (l : List Nat) (nx : Option Nat) :
    (mkSeg p l nx).length = l.length := by
  induction l generalizing p with
  | nil => rfl
  | cons a rest ih => simp only [mkSeg, List.length_cons, ih]

theorem altHead_append (xs ys : List Nat) (nx : Option Nat) :
    altHead (xs ++ ys) nx = altHead xs (altHead ys nx) := by
  cases xs <;> rfl

theorem seedAfter_concat (p : Option Nat) (ys : List Nat) (a : Nat) :
    seedAfter p (ys ++ [a]) = some a := by
  induction ys generalizing p with
  | nil => rfl
  | cons b t ih => simp only [List.cons_append, seedAfter]; exact ih _

theorem seedAfter_eq_or (p : Option Nat) (l : List Nat) :
    seedAfter p l = l.getLast?.or p := by
  induction l generalizing p with
  | nil => rfl
  | cons a rest ih =>
    cases rest with
    | nil => rfl
    | cons b t =>
      rw [seedAfter, ih, List.getLast?_cons_cons,
        List.getLast?_eq_getLast (b :: t) (by simp)]
      rfl

theorem mkSeg_append (p : Option Nat) (xs ys : List Nat) (nx : Option Nat) :
    mkSeg p (xs ++ ys) nx = mkSeg p xs (altHead ys nx) ++ mkSeg (seedAfter p xs) ys nx := by
  induction xs generalizing p with
  | nil => rfl
  | cons a rest ih =>
    show (a, ⟨p, altHead (rest ++ ys) nx⟩) :: mkSeg (some a) (rest ++ ys) nx
      = (a, ⟨p, altHead rest (altHead ys nx)⟩) ::
        (mkSeg (some a) rest (altHead ys nx) ++ mkSeg (seedAfter (some a) rest) ys nx)
    rw [ih, altHead_append]

/-! ### Heap operations against segment decompositions -/

theorem lookupNodes_append_right (e : Nat) (A B : List (Nat × Node)) (h : e ∉ keysOf A) :
    lookupNodes e (A ++ B) = lookupNodes e B := by
  induction A with
  | nil => rfl
  | cons x rest ih =>
    obtain ⟨k, n⟩ := x
    have h1 : ¬ k = e := fun hk => h (by rw [hk]; exact List.mem_cons_self _ _)
    have h2 : e ∉ keysOf rest := fun hm => h (List.mem_cons_of_mem _ hm)
    show (if k = e then some n else lookupNodes e (rest ++ B)) = lookupNodes e B
    rw [if_neg h1, ih h2]

theorem lookupNodes_cons_self (e : Nat) (n : Node) (B : List (Nat × Node)) :
    lookupNodes e ((e, n) :: B) = some n := by
  simp [lookupNodes]

theorem setPrev_append_right (k : Nat) (v : Option Nat) (A B : List (Nat × Node))
    (h : k ∉ keysOf A) : setPrev k v (A ++ B) = A ++ setPrev k v B := by
  induction A with
  | nil => rfl
  | cons x rest ih =>
    obtain ⟨k2, n⟩ := x
    have h1 : ¬ k2 = k := fun hk => h (by rw [hk]; exact List.mem_cons_self _ _)
    have h2 : k ∉ keysOf rest := fun hm => h (List.mem_cons_of_mem _ hm)
    show (if k2 = k then (k2, { n with prev := v }) :: (rest ++ B)
        else (k2, n) :: setPrev k v (rest ++ B)) = (k2, n) :: (rest ++ setPrev k v B)
    rw [if_neg h1, ih h2]

theorem setNext_append_left (k : Nat) (v : Option Nat) (A B : List (Nat × Node))
    (h : k ∈ keysOf A) : setNext k v (A ++ B) = setNext k v A ++ B := by
  induction A with
  | nil => simp [keysOf] at h
  | cons x rest ih =>
    obtain ⟨k2, n⟩ := x
    show (if k2 = k then (k2, { n with next := v }) :: (rest ++ B)
        else (k2, n) :: setNext k v (rest ++ B))
      = (if k2 = k then (k2, { n with next := v }) :: rest
        else (k2, n) :: setNext k v rest) ++ B
    by_cases hk : k2 = k
    · rw [if_pos hk, if_pos hk]
      rfl
    · rcases List.mem_cons.mp h with h | h
      · exact absurd h.symm hk
      · rw [if_neg hk, if_neg hk, List.cons_append, ih h]

theorem eraseKey_append_right (k : Nat) (A B : List (Nat × Node)) (h : k ∉ keysOf A) :
    eraseKey k (A ++ B) = A ++ eraseKey k B := by
  induction A with
  | nil => rfl
  | cons x rest ih =>
    obtain ⟨k2, n⟩ := x
    have h1 : ¬ k2 = k := fun hk => h (by rw [hk]; exact List.mem_cons_self _ _)
    have h2 : k ∉ keysOf rest := fun hm => h (List.mem_cons_of_mem _ hm)
    show (if k2 = k then rest ++ B else (k2, n) :: eraseKey k (rest ++ B))
      = (k2, n) :: (rest ++ eraseKey k B)
    rw [if_neg h1, ih h2]

theorem eraseKey_cons_self (k : Nat) (n : Node) (B : List (Nat × Node)) :
    eraseKey k ((k, n) :: B) = B := by
  simp [eraseKey]

theorem setNext_mkSeg_concat (p nx v : Option Nat) (ys : List Nat) (a : Nat) (h : a ∉ ys) :
    setNext a v (mkSeg p (ys ++ [a]) nx) = mkSeg p (ys ++ [a]) v := by
  induction ys generalizing p with
  | nil => simp [mkSeg, setNext, altHead]
  | cons b t ih =>
    have h1 : ¬ b = a := fun hk => h (by rw [hk]; exact List.mem_cons_self _ _)
    have h2 : a ∉ t := fun hm => h (List.mem_cons_of_mem _ hm)
    show (if b = a then (b, { prev := p, next := v }) :: mkSeg (some b) (t ++ [a]) nx
        else (b, ⟨p, altHead (t ++ [a]) nx⟩) :: setNext a v (mkSeg (some b) (t ++ [a]) nx))
      = (b, ⟨p, altHead (t ++ [a]) v⟩) :: mkSeg (some b) (t ++ [a]) v
    rw [if_neg h1, ih _ h2, altHead_append, altHead_append]
    rfl

theorem setPrev_mkSeg_head (v p nx : Option Nat) (q : Nat) (rest : List Nat) :
    setPrev q v (mkSeg p (q :: rest) nx) = mkSeg v (q :: rest) nx := by
  simp [mkSeg, setPrev]

/-! ### Registration and unregistration against the canonical representation -/

theorem regist_repList (e : Nat) (l : List Nat) :
    regist e (repList l) = repList (e :: l) := by
  cases l with
  | nil => rfl
  | cons h rest =>
    show ({ head := some e, nodes := (e, ⟨none, some h⟩) ::
        setPrev h (some e) ((h, ⟨none, altHead rest none⟩) :: mkSeg (some h) rest none) } :
        RegState)
      = { head := some e, nodes := (e, ⟨none, some h⟩) ::
          (h, ⟨some e, altHead rest none⟩) :: mkSeg (some h) rest none }
    rw [setPrev, if_pos rfl]

theorem patchNextOfPrev_seg (e : Nat) (l1 l2 : List Nat) (hnd1 : l1.Nodup) :
    patchNextOfPrev ⟨seedAfter none l1, altHead l2 none⟩
      (mkSeg none l1 (some e) ++
        (e, ⟨seedAfter none l1, altHead l2 none⟩) :: mkSeg (some e) l2 none)
    = mkSeg none l1 (altHead l2 none) ++
        (e, ⟨seedAfter none l1, altHead l2 none⟩) :: mkSeg (some e) l2 none := by
  rcases List.eq_nil_or_concat l1 with h | ⟨ys, w, h⟩ <;> subst h
  · rfl
  · rw [List.concat_eq_append] at hnd1 ⊢
    have hw : w ∉ ys := by
      have := List.disjoint_of_nodup_append hnd1
      exact fun hm => this hm (List.mem_singleton.mpr rfl)
    rw [seedAfter_concat]
    show setNext w (altHead l2 none)
        (mkSeg none (ys ++ [w]) (some e) ++
          (e, ⟨some w, altHead l2 none⟩) :: mkSeg (some e) l2 none)
      = mkSeg none (ys ++ [w]) (altHead l2 none) ++
          (e, ⟨some w, altHead l2 none⟩) :: mkSeg (some e) l2 none
    rw [setNext_append_left _ _ _ _
        (by rw [keysOf_mkSeg]; exact List.mem_append_right ys (List.mem_singleton.mpr rfl)),
      setNext_mkSeg_concat _ _ _ _ _ hw]

theorem patchPrevOfNext_seg (e : Nat) (l1 l2 : List Nat) (nd : Node)
    (hd2 : ∀ x ∈ l2, x ∉ l1) (he2 : e ∉ l2) :
    patchPrevOfNext ⟨seedAfter none l1, altHead l2 none⟩
      (mkSeg none l1 (altHead l2 none) ++ (e, nd) :: mkSeg (some e) l2 none)
    = mkSeg none l1 (altHead l2 none) ++ (e, nd) :: mkSeg (seedAfter none l1) l2 none := by
  cases l2 with
  | nil => rfl
  | cons q t2 =>
    have hq1 : q ∉ keysOf (mkSeg none l1 (altHead (q :: t2) none)) := by
      rw [keysOf_mkSeg]; exact hd2 q (List.mem_cons_self _ _)
    have hqe : ¬ e = q := fun hc => he2 (hc ▸ List.mem_cons_self _ _)
    show setPrev q (seedAfter none l1)
        (mkSeg none l1 (altHead (q :: t2) none) ++
          (e, nd) :: mkSeg (some e) (q :: t2) none)
      = mkSeg none l1 (altHead (q :: t2) none) ++
          (e, nd) :: mkSeg (seedAfter none l1) (q :: t2) none
    rw [setPrev_append_right _ _ _ _ hq1]
    show mkSeg none l1 (altHead (q :: t2) none) ++
        (if e = q then (e, { nd with prev := seedAfter none l1 }) :: mkSeg (some e) (q :: t2) none
          else (e, nd) :: setPrev q (seedAfter none l1) (mkSeg (some e) (q :: t2) none))
      = _
    rw [if_neg hqe, setPrev_mkSeg_head]

theorem unregist_repList (e : Nat) (l1 l2 : List Nat) (hnd : (l1 ++ e :: l2).Nodup) :
    unregist e (repList (l1 ++ e :: l2)) = repList (l1 ++ l2) := by
  have hl1 : l1.Nodup := (List.nodup_append.mp hnd).1
  have hdisj : l1.Disjoint (e :: l2) := (List.nodup_append.mp hnd).2.2
  have he1 : e ∉ l1 := fun he => hdisj he (List.mem_cons_self _ _)
  have he2 : e ∉ l2 := (List.nodup_cons.mp (List.nodup_append.mp hnd).2.1).1
  have hd2 : ∀ x ∈ l2, x ∉ l1 := fun x hx hxl1 => hdisj hxl1 (List.mem_cons_of_mem _ hx)
  have hnodes : (repList (l1 ++ e :: l2)).nodes
      = mkSeg none l1 (some e) ++
        (e, ⟨seedAfter none l1, altHead l2 none⟩) :: mkSeg (some e) l2 none :=
    mkSeg_append none l1 (e :: l2) none
  have hlook : lookupNodes e (repList (l1 ++ e :: l2)).nodes
      = some ⟨seedAfter none l1, altHead l2 none⟩ := by
    rw [hnodes, lookupNodes_append_right _ _ _ (by rw [keysOf_mkSeg]; exact he1),
      lookupNodes_cons_self]
  rw [unregist, hlook]
  show ({ head := if (repList (l1 ++ e :: l2)).head = some e then altHead l2 none
          else (repList (l1 ++ e :: l2)).head,
          nodes := eraseKey e
            (patchPrevOfNext ⟨seedAfter none l1, altHead l2 none⟩
              (patchNextOfPrev ⟨seedAfter none l1, altHead l2 none⟩
                (repList (l1 ++ e :: l2)).nodes)) } : RegState)
    = { head := altHead (l1 ++ l2) none, nodes := mkSeg none (l1 ++ l2) none }
  rw [hnodes, patchNextOfPrev_seg e l1 l2 hl1, patchPrevOfNext_seg e l1 l2 _ hd2 he2,
    eraseKey_append_right _ _ _ (by rw [keysOf_mkSeg]; exact he1), eraseKey_cons_self,
    RegState.mk.injEq]
  refine ⟨?_, ?_⟩
  · cases l1 with
    | nil =>
      show (if (some e : Option Nat) = some e then altHead l2 none else some e)
        = altHead l2 none
      rw [if_pos rfl]
    | cons a t =>
      have ha : a ≠ e := fun haeq => he1 (haeq ▸ List.mem_cons_self _ _)
      show (if (some a : Option Nat) = some e then altHead l2 none else some a) = some a
      rw [if_neg (fun hc => ha (Option.some.inj hc))]
  · rw [mkSeg_append]

theorem unregist_repList_erase (e : Nat) (l : List Nat) (hnd : l.Nodup) (he : e ∈ l) :
    unregist e (repList l) = repList (l.erase e) := by
  obtain ⟨l1, l2, rfl⟩ := List.append_of_mem he
  have he1 : e ∉ l1 :=
    fun hm => (List.disjoint_of_nodup_append hnd) hm (List.mem_cons_self _ _)
  rw [unregist_repList e l1 l2 hnd, List.erase_append_right _ he1, List.erase_cons_head]

/-! ### Traversal of the canonical heap -/

theorem traverseNextAux_none (nodes : List (Nat × Node)) (fuel : Nat) :
    traverseNextAux nodes fuel none = [] := by
  cases fuel <;> rfl

theorem traversePrevAux_none (nodes : List (Nat × Node)) (fuel : Nat) :
    traversePrevAux nodes fuel none = [] := by
  cases fuel <;> rfl

theorem traverseNextAux_seg (l : List Nat) :
    ∀ (A : List (Nat × Node)) (p : Option Nat) (k : Nat), l.Nodup →
      (∀ x ∈ l, x ∉ keysOf A) →
      traverseNextAux (A ++ mkSeg p l none) (l.length + k) (altHead l none) = l := by
  induction l with
  | nil => intro A p k _ _; exact traverseNextAux_none _ _
  | cons q rest ih =>
    intro A p k hnd hA
    have hq : q ∉ rest := (List.nodup_cons.mp hnd).1
    have hlq : lookupNodes q (A ++ mkSeg p (q :: rest) none)
        = some ⟨p, altHead rest none⟩ := by
      rw [lookupNodes_append_right _ _ _ (hA q (List.mem_cons_self _ _))]
      exact lookupNodes_cons_self _ _ _
    have hfuel : (q :: rest).length + k = (rest.length + k) + 1 := by
      simp only [List.length_cons]; omega
    rw [hfuel]
    show (match lookupNodes q (A ++ mkSeg p (q :: rest) none) with
      | some n => q :: traverseNextAux (A ++ mkSeg p (q :: rest) none) (rest.length + k) n.next
      | none => [q]) = q :: rest
    rw [hlq]
    show q :: traverseNextAux (A ++ mkSeg p (q :: rest) none) (rest.length + k)
        (altHead rest none) = q :: rest
    have hassoc : A ++ mkSeg p (q :: rest) none
        = (A ++ [(q, ⟨p, altHead rest none⟩)]) ++ mkSeg (some q) rest none := by
      rw [List.append_assoc]
      rfl
    rw [hassoc, ih _ (some q) k (List.nodup_cons.mp hnd).2 ?keys]
    case keys =>
      intro x hx
      rw [keysOf_append]
      intro hmem
      rcases List.mem_append.mp hmem with h | h
      · exact hA x (List.mem_cons_of_mem _ hx) h
      · have : x = q := by
          simpa [keysOf] using h
        exact hq (this ▸ hx)

theorem traversePrevAux_seg (l : List Nat) :
    ∀ (A : List (Nat × Node)) (nx : Option Nat) (k : Nat), l.Nodup →
      (∀ x ∈ l, x ∉ keysOf A) →
      traversePrevAux (mkSeg none l nx ++ A) (l.length + k) l.getLast? = l.reverse := by
  induction l using List.reverseRecOn with
  | nil => intro A nx k _ _; exact traversePrevAux_none _ _
  | append_singleton init a ih =>
    intro A nx k hnd hA
    have hinit : init.Nodup := hnd.of_append_left
    have hainit : a ∉ init :=
      fun hm => (List.disjoint_of_nodup_append hnd) hm (List.mem_singleton.mpr rfl)
    have hdecomp : mkSeg none (init ++ [a]) nx ++ A
        = mkSeg none init (some a) ++ ((a, ⟨seedAfter none init, nx⟩) :: A) := by
      rw [mkSeg_append, List.append_assoc]
      rfl
    have hlast : (init ++ [a]).getLast? = some a := List.getLast?_concat init
    have hla : lookupNodes a (mkSeg none (init ++ [a]) nx ++ A)
        = some ⟨seedAfter none init, nx⟩ := by
      rw [hdecomp, lookupNodes_append_right _ _ _ (by rw [keysOf_mkSeg]; exact hainit)]
      exact lookupNodes_cons_self _ _ _
    have hfuel : (init ++ [a]).length + k = (init.length + k) + 1 := by
      simp only [List.length_append, List.length_cons, List.length_nil]; omega
    rw [hfuel, hlast]
    show (match lookupNodes a (mkSeg none (init ++ [a]) nx ++ A) with
      | some n => a :: traversePrevAux (mkSeg none (init ++ [a]) nx ++ A)
          (init.length + k) n.prev
      | none => [a]) = (init ++ [a]).reverse
    rw [hla]
    show a :: traversePrevAux (mkSeg none (init ++ [a]) nx ++ A) (init.length + k)
        (seedAfter none init) = (init ++ [a]).reverse
    have hseed : seedAfter none init = init.getLast? := by
      rw [seedAfter_eq_or, Option.or_none]
    rw [hdecomp, hseed, ih _ (some a) k hinit ?keys, List.reverse_append]
    case keys =>
      intro x hx hmem
      have hmem2 : x ∈ a :: keysOf A := hmem
      rcases List.mem_cons.mp hmem2 with h | h
      · exact hainit (h ▸ hx)
      · exact hA x (List.mem_append_left _ hx) h
    rfl

theorem toListFwd_repList (l : List Nat) (hnd : l.Nodup) :
    (repList l).toListFwd = l := by
  show traverseNextAux (mkSeg none l none) (mkSeg none l none).length (altHead l none) = l
  rw [length_mkSeg]
  exact traverseNextAux_seg l [] none 0 hnd (fun x _ => List.not_mem_nil x)

theorem toListBwd_repList (l : List Nat) (hnd : l.Nodup) :
    (repList l).toListBwd = l.reverse := by
  show traversePrevAux (mkSeg none l none) (mkSeg none l none).length
      (repList l).toListFwd.getLast? = l.reverse
  rw [length_mkSeg, toListFwd_repList l hnd]
  have h := traversePrevAux_seg l [] none 0 hnd (fun x _ => List.not_mem_nil x)
  rw [List.append_nil] at h
  exact h

/-! ### The registry invariant under arbitrary well-formed operation sequences -/

theorem applyOps_repList (ops : List Op) :
    ∀ m : List Nat, m.Nodup → wfOps m ops = true →
      applyOps ops (repList m) = repList (modelRun m ops) ∧ (modelRun m ops).Nodup := by
  induction ops with
  | nil => intro m h _; exact ⟨rfl, h⟩
  | cons op rest ih =>
    intro m hm hwf
    cases op with
    | reg e =>
      rw [wfOps, Bool.and_eq_true, Bool.not_eq_true'] at hwf
      have hne : e ∉ m := fun hmem => by
        have hc : m.contains e = true := List.elem_iff.mpr hmem
        rw [hwf.1] at hc
        exact Bool.false_ne_true hc
      show applyOps rest (regist e (repList m)) = repList (modelRun (e :: m) rest) ∧
        (modelRun (e :: m) rest).Nodup
      rw [regist_repList]
      exact ih (e :: m) (List.nodup_cons.mpr ⟨hne, hm⟩) hwf.2
    | unreg e =>
      rw [wfOps, Bool.and_eq_true] at hwf
      have hmem : e ∈ m := List.elem_iff.mp hwf.1
      show applyOps rest (unregist e (repList m)) = repList (modelRun (m.erase e) rest) ∧
        (modelRun (m.erase e) rest).Nodup
      rw [unregist_repList_erase e m hm hmem]
      exact ih (m.erase e) (hm.erase e) hwf.2

theorem applyOps_regs (es : List Nat) :
    ∀ m : List Nat, applyOps (es.map Op.reg) (repList m) = repList (es.reverse ++ m) := by
  induction es with
  | nil => intro m; rfl
  | cons e rest ih =>
    intro m
    show applyOps (rest.map Op.reg) (regist e (repList m)) = repList ((e :: rest).reverse ++ m)
    rw [regist_repList, ih (e :: m)]
    congr 1
    simp [List.reverse_cons, List.append_assoc]

/-! ### No dangling links: every pointer in the canonical heap names a live node -/

theorem mkSeg_pointer_mem (l : List Nat) :
    ∀ (p nx : Option Nat) (e : Nat) (n : Node), (e, n) ∈ mkSeg p l nx →
      (n.prev = p ∨ ∃ x ∈ l, n.prev = some x) ∧
      (n.next = nx ∨ ∃ x ∈ l, n.next = some x) := by
  induction l with
  | nil => intro p nx e n h; exact absurd h (List.not_mem_nil _)
  | cons a rest ih =>
    intro p nx e n h
    rcases List.mem_cons.mp h with h | h
    · have hn : n = ⟨p, altHead rest nx⟩ := congrArg Prod.snd h
      subst hn
      refine ⟨Or.inl rfl, ?_⟩
      cases rest with
      | nil => exact Or.inl rfl
      | cons b t => exact Or.inr ⟨b, List.mem_cons_of_mem _ (List.mem_cons_self _ _), rfl⟩
    · have h1 := ih (some a) nx e n h
      refine ⟨?_, ?_⟩
      · rcases h1.1 with h2 | ⟨x, hx, h2⟩
        · exact Or.inr ⟨a, List.mem_cons_self _ _, h2⟩
        · exact Or.inr ⟨x, List.mem_cons_of_mem _ hx, h2⟩
      · rcases h1.2 with h2 | ⟨x, hx, h2⟩
        · exact Or.inl h2
        · exact Or.inr ⟨x, List.mem_cons_of_mem _ hx, h2⟩

theorem lookupNodes_isSome_of_mem (x : Nat) (l : List Nat) :
    ∀ (p nx : Option Nat), x ∈ l → (lookupNodes x (mkSeg p l nx)).isSome = true := by
  induction l with
  | nil => intro p nx h; exact absurd h (List.not_mem_nil _)
  | cons a rest ih =>
    intro p nx h
    show (if a = x then some (⟨p, altHead rest nx⟩ : Node)
        else lookupNodes x (mkSeg (some a) rest nx)).isSome = true
    by_cases hax : a = x
    · rw [if_pos hax]; rfl
    · rw [if_neg hax]
      rcases List.mem_cons.mp h with h | h
      · exact absurd h.symm hax
      · exact ih (some a) nx h

/-! ### Claim theorems for the registry -/

/-- C1. For every client and every sequence of N distinct executables constructed
(registered) in order `e1 … eN` against that client, reading the registry from the
head via `next` links yields `eN … e1` (most-recently-created first); and after
destroying (unregistering) any single `eK`, reading again yields the same sequence
with `eK` removed, for every choice of `K`. -/
theorem registry_order_and_removal (es : List Nat) (hnd : es.Nodup) :
    (applyOps (es.map Op.reg) initState).toListFwd = es.reverse ∧
    ∀ e ∈ es,
      (unregist e (applyOps (es.map Op.reg) initState)).toListFwd = es.reverse.erase e := by
  have hstate : applyOps (es.map Op.reg) initState = repList es.reverse := by
    have h := applyOps_regs es []
    rw [List.append_nil] at h
    exact h
  have hrev : es.reverse.Nodup := List.nodup_reverse.mpr hnd
  constructor
  · rw [hstate]
    exact toListFwd_repList _ hrev
  · intro e he
    rw [hstate, unregist_repList_erase e _ hrev (List.mem_reverse.mpr he),
      toListFwd_repList _ (hrev.erase e)]

/-- Witness for C1 at the concrete registration sequence `e1 e2 e3 = 1 2 3`,
destroying `e2 = 2`. -/
theorem registry_order_and_removal_witness :
    (applyOps ([1, 2, 3].map Op.reg) initState).toListFwd = [3, 2, 1] ∧
    (unregist 2 (applyOps ([1, 2, 3].map Op.reg) initState)).toListFwd = [3, 1] := by
  have h := registry_order_and_removal [1, 2, 3] (by decide)
  exact ⟨h.1, h.2 2 (by decide)⟩

/-- C2. After any well-formed sequence of register (construction) and unregister
(destruction) operations on a client's registry, the doubly-linked list is
self-consistent: the backward traversal from the tail-most node via `prev` is the
reverse of the forward traversal from the head via `next`, and no node's `prev`
or `next` points at a removed (dead) executable — every link target is a live key
of the heap. -/
theorem registry_links_consistent (ops : List Op) (hwf : wfOps [] ops = true) :
    (applyOps ops initState).toListBwd = (applyOps ops initState).toListFwd.reverse ∧
    ∀ e n, (e, n) ∈ (applyOps ops initState).nodes →
      (∀ x, n.prev = some x →
        (lookupNodes x (applyOps ops initState).nodes).isSome = true) ∧
      (∀ x, n.next = some x →
        (lookupNodes x (applyOps ops initState).nodes).isSome = true) := by
  obtain ⟨hst, hnd⟩ := applyOps_repList ops [] List.nodup_nil hwf
  have hst2 : applyOps ops initState = repList (modelRun [] ops) := hst
  rw [hst2]
  constructor
  · rw [toListBwd_repList _ hnd, toListFwd_repList _ hnd]
  · intro e n hmem
    have hp := mkSeg_pointer_mem (modelRun [] ops) none none e n hmem
    constructor
    · intro x hx
      rcases hp.1 with h | ⟨y, hy, h⟩
      · rw [hx] at h; cases h
      · rw [hx] at h
        have : x = y := Option.some.inj h
        exact this ▸ lookupNodes_isSome_of_mem _ _ none none hy
    · intro x hx
      rcases hp.2 with h | ⟨y, hy, h⟩
      · rw [hx] at h; cases h
      · rw [hx] at h
        have : x = y := Option.some.inj h
        exact this ▸ lookupNodes_isSome_of_mem _ _ none none hy

/-- Witness for C2 at the concrete operation sequence: register 1, register 2,
unregister 1, register 3; the node of executable 2 has `prev = some 3`, and 3 is
live. -/
theorem registry_links_consistent_witness :
    ((applyOps [Op.reg 1, Op.reg 2, Op.unreg 1, Op.reg 3] initState).toListBwd
      = (applyOps [Op.reg 1, Op.reg 2, Op.unreg 1, Op.reg 3] initState).toListFwd.reverse) ∧
    (lookupNodes 3 (applyOps [Op.reg 1, Op.reg 2, Op.unreg 1, Op.reg 3]
      initState).nodes).isSome = true := by
  have h := registry_links_consistent [Op.reg 1, Op.reg 2, Op.unreg 1, Op.reg 3] (by decide)
  exact ⟨h.1, (h.2 2 ⟨some 3, none⟩ (by decide)).1 3 rfl⟩

/-! ## Execution: options derivation, buffer bridge, dispatchers -/

/-- Modelled from the spec: `tensorflow::Fingerprint32`
(tensorflow/core/platform/fingerprint.h) is not under src/; the spec requires
only a fixed, deterministic 32-bit hash of the fingerprint string's bytes, so we
use an FNV-1a-style fold reduced modulo `2^32`. Strings are byte lists. -/
def Fingerprint32 (bytes : List Nat) : Nat :=
  bytes.foldl (fun h b => ((h ^^^ (b % 256)) * 16777619) % 4294967296) 2166136261

/-- Modelled from the spec: the engine's `ExecuteOptions` record is not under
src/; per the spec it carries the result-flattening flag and an optional launch
identifier, absent meaning no override. -/
structure ExecuteOptions where
  untuple_result : Bool := false
  launch_id : Option Nat := none
  deriving Repr, DecidableEq

/-- The options derivation in `PyExecutable::PyExecutable` (py_executable.cc:40-45):
`options_.untuple_result = true;
if (fingerprint_) options_.launch_id = tensorflow::Fingerprint32(*fingerprint_);`. -/
def deriveOptions (fingerprint : Option (List Nat)) : ExecuteOptions :=
  let o : ExecuteOptions := {}
  let o1 : ExecuteOptions := { o with untuple_result := true }
  match fingerprint with
  | some f => { o1 with launch_id := some (Fingerprint32 f) }
  | none => o1

/-- A host-visible buffer handle (`PyBuffer`): the owning client, the wrapped
native `PjRtBuffer` (by id), and the traceback token attached at creation. -/
structure PyBuffer where
  client : Nat
  buffer : Nat
  traceback : Nat
  deriving Repr, DecidableEq

/-- The native compiled program handle (`PjRtExecutable`), carrying the
engine-side device list used by `LocalDevices`. -/
structure PjRtExecutableH where
  local_devices : List Nat
  deriving Repr, DecidableEq

/-- The fields of a `PyExecutable` (py_executable.h): owning client, native
compiled program, creation traceback, optional fingerprint, derived dispatch
options, and the two intrusive registry links. -/
structure PyExecutable where
  client_ : Nat
  executable_ : PjRtExecutableH
  traceback_ : Nat
  fingerprint_ : Option (List Nat)
  options_ : ExecuteOptions
  prev_ : Option Nat
  next_ : Option Nat
  deriving Repr, DecidableEq

/-- The `PyExecutable` constructor (py_executable.cc:25-46): registers the new
executable (by id) at the head of the client's registry, sets its own links
(`prev_ = nullptr`, `next_` = old head), and derives the dispatch options from
the fingerprint. -/
def mkPyExecutable (id client : Nat) (executable : PjRtExecutableH) (tb : Nat)
    (fingerprint : Option (List Nat)) (s : RegState) : PyExecutable × RegState :=
  ({ client_ := client, executable_ := executable, traceback_ := tb,
     fingerprint_ := fingerprint, options_ := deriveOptions fingerprint,
     prev_ := none, next_ := s.head }, regist id s)

/-- The buffer bridge (py_executable.cc:92-94 and 114-119):
`absl::c_transform(args, arg_buffers.begin(),
[](PyBuffer* buf) { return buf->buffer(); });`. -/
def extractNative : List PyBuffer → List Nat
  | [] => []
  | b :: rest => b.buffer :: extractNative rest

/-- The per-computation buffer bridge loop of `ExecuteOnLocalDevices`. -/
def extractNativeNested : List (List PyBuffer) → List (List Nat)
  | [] => []
  | g :: rest => extractNative g :: extractNativeNested rest

/-- The output-wrapping loop (py_executable.cc:100-105): for every native output
buffer, construct a `PyBuffer` with the call's client and shared traceback. -/
def wrapAll (client tb : Nat) : List Nat → List PyBuffer
  | [] => []
  | b :: rest => ⟨client, b, tb⟩ :: wrapAll client tb rest

/-- The nested output-wrapping loop of `ExecuteOnLocalDevices`
(py_executable.cc:125-132). -/
def wrapAllNested (client tb : Nat) : List (List Nat) → List (List PyBuffer)
  | [] => []
  | g :: rest => wrapAll client tb g :: wrapAllNested client tb rest

/-- The native engine call `executable_->Execute(args, options_)`: an external
collaborator mapping native buffer pointers and options to a status-or of native
output buffers; the dispatcher is parametric in it. Error codes are naturals. -/
abbrev Engine : Type := List Nat → ExecuteOptions → Except Nat (List Nat)

/-- The native engine call `executable_->ExecuteOnLocalDevices`. -/
abbrev NestedEngine : Type :=
  List (List Nat) → ExecuteOptions → Except Nat (List (List Nat))

/-- `PyExecutable::PjRtExecute` (py_executable.cc:70-85): inputs are already
native buffer pointers; invoke the engine, then wrap each native output with the
client and one traceback captured after the engine returns. -/
def PjRtExecute (eng : Engine) (ex : PyExecutable) (tb : Nat) (args : List Nat) :
    Except Nat (List PyBuffer) :=
  match eng args ex.options_ with
  | Except.error e => Except.error e
  | Except.ok output_buffers => Except.ok (wrapAll ex.client_ tb output_buffers)

/-- `PyExecutable::Execute` (py_executable.cc:87-106): extract native buffers
from the handles, invoke the engine, wrap outputs with one shared traceback. -/
def Execute (eng : Engine) (ex : PyExecutable) (tb : Nat) (args : List PyBuffer) :
    Except Nat (List PyBuffer) :=
  match eng (extractNative args) ex.options_ with
  | Except.error e => Except.error e
  | Except.ok output_buffers => Except.ok (wrapAll ex.client_ tb output_buffers)

/-- `PyExecutable::ExecuteOnLocalDevices` (py_executable.cc:108-134): extract
native buffers per computation, invoke the engine once with the nested
structure, wrap the nested outputs with one shared traceback. -/
def ExecuteOnLocalDevices (eng : NestedEngine) (ex : PyExecutable) (tb : Nat)
    (args : List (List PyBuffer)) : Except Nat (List (List PyBuffer)) :=
  match eng (extractNativeNested args) ex.options_ with
  | Except.error e => Except.error e
  | Except.ok output_buffers => Except.ok (wrapAllNested ex.client_ tb output_buffers)

/-- `PjRtExecute` with the client registry and the executable's own state
threaded: the C++ body only reads `executable_`, `options_` and `client_` and
contains no write to the executable's fields or the registry, so both pass
through unchanged. -/
def PjRtExecuteFull (eng : Engine) (s : RegState) (ex : PyExecutable) (tb : Nat)
    (args : List Nat) : Except Nat (List PyBuffer) × RegState × PyExecutable :=
  (PjRtExecute eng ex tb args, s, ex)

/-- `Execute` with the registry and executable state threaded (no writes occur
in the C++ body). -/
def ExecuteFull (eng : Engine) (s : RegState) (ex : PyExecutable) (tb : Nat)
    (args : List PyBuffer) : Except Nat (List PyBuffer) × RegState × PyExecutable :=
  (Execute eng ex tb args, s, ex)

/-- `ExecuteOnLocalDevices` with the registry and executable state threaded (no
writes occur in the C++ body). -/
def ExecuteOnLocalDevicesFull (eng : NestedEngine) (s : RegState) (ex : PyExecutable)
    (tb : Nat) (args : List (List PyBuffer)) :
    Except Nat (List (List PyBuffer)) × RegState × PyExecutable :=
  (ExecuteOnLocalDevices eng ex tb args, s, ex)

/-- `WrapWithClient`: pair a device with the owning client. -/
def WrapWithClient (client : Nat) (device : Nat) : Nat × Nat := (client, device)

/-- The loop of `PyExecutable::LocalDevices` (py_executable.cc:61-68):
`for (PjRtDevice* device : executable_->local_devices())
devices.push_back(WrapWithClient(client_, device));`. -/
def LocalDevicesLoop (client : Nat) : List Nat → List (Nat × Nat)
  | [] => []
  | d :: rest => WrapWithClient client d :: LocalDevicesLoop client rest

/-- `PyExecutable::LocalDevices` (py_executable.cc:61-68). -/
def LocalDevices (ex : PyExecutable) : List (Nat × Nat) :=
  LocalDevicesLoop ex.client_ ex.executable_.local_devices

/-! ### Helper lemmas for the bridge and the wrapping loops -/

theorem extractNative_length (args : List PyBuffer) :
    (extractNative args).length = args.length := by
  induction args with
  | nil => rfl
  | cons b rest ih => simp only [extractNative, List.length_cons, ih]

theorem extractNative_get (args : List PyBuffer) :
    ∀ (i : Nat) (hi : i < (extractNative args).length) (hj : i < args.length),
      (extractNative args).get ⟨i, hi⟩ = (args.get ⟨i, hj⟩).buffer := by
  induction args with
  | nil => intro i _ hj; exact absurd hj (Nat.not_lt_zero i)
  | cons b rest ih =>
    intro i hi hj
    cases i with
    | zero => rfl
    | succ k => exact ih k (Nat.lt_of_succ_lt_succ hi) (Nat.lt_of_succ_lt_succ hj)

theorem wrapAll_length (c tb : Nat) (bs : List Nat) :
    (wrapAll c tb bs).length = bs.length := by
  induction bs with
  | nil => rfl
  | cons b rest ih => simp only [wrapAll, List.length_cons, ih]

theorem wrapAll_get (c tb : Nat) (bs : List Nat) :
    ∀ (i : Nat) (hi : i < (wrapAll c tb bs).length) (hj : i < bs.length),
      (wrapAll c tb bs).get ⟨i, hi⟩ = ⟨c, bs.get ⟨i, hj⟩, tb⟩ := by
  induction bs with
  | nil => intro i _ hj; exact absurd hj (Nat.not_lt_zero i)
  | cons b rest ih =>
    intro i hi hj
    cases i with
    | zero => rfl
    | succ k => exact ih k (Nat.lt_of_succ_lt_succ hi) (Nat.lt_of_succ_lt_succ hj)

theorem extractNativeNested_length (args : List (List PyBuffer)) :
    (extractNativeNested args).length = args.length := by
  induction args with
  | nil => rfl
  | cons g rest ih => simp only [extractNativeNested, List.length_cons, ih]

theorem wrapAllNested_length (c tb : Nat) (bss : List (List Nat)) :
    (wrapAllNested c tb bss).length = bss.length := by
  induction bss with
  | nil => rfl
  | cons g rest ih => simp only [wrapAllNested, List.length_cons, ih]

theorem wrapAllNested_get (c tb : Nat) (bss : List (List Nat)) :
    ∀ (i : Nat) (hi : i < (wrapAllNested c tb bss).length) (hj : i < bss.length),
      (wrapAllNested c tb bss).get ⟨i, hi⟩ = wrapAll c tb (bss.get ⟨i, hj⟩) := by
  induction bss with
  | nil => intro i _ hj; exact absurd hj (Nat.not_lt_zero i)
  | cons g rest ih =>
    intro i hi hj
    cases i with
    | zero => rfl
    | succ k => exact ih k (Nat.lt_of_succ_lt_succ hi) (Nat.lt_of_succ_lt_succ hj)

theorem mem_wrapAll_traceback (c tb : Nat) (bs : List Nat) :
    ∀ b ∈ wrapAll c tb bs, b.traceback = tb := by
  induction bs with
  | nil => intro b hb; exact absurd hb (List.not_mem_nil _)
  | cons x rest ih =>
    intro b hb
    rcases List.mem_cons.mp hb with h | h
    · rw [h]
    · exact ih b h

theorem mem_wrapAllNested_traceback (c tb : Nat) (bss : List (List Nat)) :
    ∀ g ∈ wrapAllNested c tb bss, ∀ b ∈ g, b.traceback = tb := by
  induction bss with
  | nil => intro g hg; exact absurd hg (List.not_mem_nil _)
  | cons x rest ih =>
    intro g hg
    rcases List.mem_cons.mp hg with h | h
    · intro b hb
      exact mem_wrapAll_traceback c tb x b (h ▸ hb)
    · exact ih g h

theorem LocalDevicesLoop_length (c : Nat) (ds : List Nat) :
    (LocalDevicesLoop c ds).length = ds.length := by
  induction ds with
  | nil => rfl
  | cons d rest ih => simp only [LocalDevicesLoop, List.length_cons, ih]

theorem LocalDevicesLoop_get (c : Nat) (ds : List Nat) :
    ∀ (i : Nat) (hi : i < (LocalDevicesLoop c ds).length) (hj : i < ds.length),
      (LocalDevicesLoop c ds).get ⟨i, hi⟩ = (c, ds.get ⟨i, hj⟩) := by
  induction ds with
  | nil => intro i _ hj; exact absurd hj (Nat.not_lt_zero i)
  | cons d rest ih =>
    intro i hi hj
    cases i with
    | zero => rfl
    | succ k => exact ih k (Nat.lt_of_succ_lt_succ hi) (Nat.lt_of_succ_lt_succ hj)

theorem fingerprint_foldl_lt (bytes : List Nat) :
    ∀ h0 : Nat, h0 < 4294967296 →
      bytes.foldl (fun h b => ((h ^^^ (b % 256)) * 16777619) % 4294967296) h0
        < 4294967296 := by
  induction bytes with
  | nil => intro h0 hh; exact hh
  | cons b rest ih =>
    intro h0 _
    exact ih _ (Nat.mod_lt _ (by norm_num))

theorem Fingerprint32_lt (bytes : List Nat) : Fingerprint32 bytes < 4294967296 :=
  fingerprint_foldl_lt bytes 2166136261 (by norm_num)

/-- A concrete executable used by witness theorems: client 5, two local devices,
no fingerprint. -/
def exW : PyExecutable := (mkPyExecutable 0 5 ⟨[20, 21]⟩ 3 none initState).1

/-! ### Claim theorems for options, dispatch and devices -/

/-- Claim C3: for every executable construction, the derived dispatch options
have `untuple_result` set true unconditionally; the launch identifier equals the
fixed 32-bit hash of the fingerprint's bytes when a fingerprint is present, and
is absent (no override) when none is supplied; and the derivation is a pure
deterministic function of the fingerprint alone. -/
theorem options_derivation (id client : Nat) (exh : PjRtExecutableH) (tb : Nat)
    (fp : Option (List Nat)) (s : RegState) :
    (mkPyExecutable id client exh tb fp s).1.options_.untuple_result = true ∧
    (∀ f, fp = some f →
      (mkPyExecutable id client exh tb fp s).1.options_.launch_id
        = some (Fingerprint32 f) ∧ Fingerprint32 f < 4294967296) ∧
    (fp = none → (mkPyExecutable id client exh tb fp s).1.options_.launch_id = none) ∧
    (∀ (id2 client2 : Nat) (exh2 : PjRtExecutableH) (tb2 : Nat) (s2 : RegState),
      (mkPyExecutable id client exh tb fp s).1.options_
        = (mkPyExecutable id2 client2 exh2 tb2 fp s2).1.options_) := by
  refine ⟨?_, ?_, ?_, ?_⟩
  · cases fp <;> rfl
  · intro f hf
    subst hf
    exact ⟨rfl, Fingerprint32_lt f⟩
  · intro h
    subst h
    rfl
  · intro _ _ _ _ _
    rfl

/-- Witness for C3 at the concrete fingerprint `[104, 105]`. -/
theorem options_derivation_witness :
    (mkPyExecutable 1 2 ⟨[]⟩ 0 (some [104, 105]) initState).1.options_.untuple_result
      = true ∧
    (mkPyExecutable 1 2 ⟨[]⟩ 0 (some [104, 105]) initState).1.options_.launch_id
      = some (Fingerprint32 [104, 105]) ∧
    Fingerprint32 [104, 105] < 4294967296 := by
  obtain ⟨h1, h2, _, _⟩ := options_derivation 1 2 ⟨[]⟩ 0 (some [104, 105]) initState
  exact ⟨h1, h2 [104, 105] rfl⟩

/-- Claim C4: for every single-device execution with K input buffer handles, if
the execution engine echoes its native inputs back as outputs unchanged, then
`Execute` returns exactly K output buffer handles in the same order as the
inputs, the k-th output wrapping the native buffer of the k-th input. -/
theorem execute_echo_roundtrip (eng : Engine) (ex : PyExecutable) (tb : Nat)
    (args : List PyBuffer)
    (hecho : eng (extractNative args) ex.options_ = Except.ok (extractNative args)) :
    Execute eng ex tb args
      = Except.ok (wrapAll ex.client_ tb (extractNative args)) ∧
    (wrapAll ex.client_ tb (extractNative args)).length = args.length ∧
    ∀ (i : Nat) (hi : i < (wrapAll ex.client_ tb (extractNative args)).length)
      (hj : i < args.length),
      ((wrapAll ex.client_ tb (extractNative args)).get ⟨i, hi⟩).buffer
        = (args.get ⟨i, hj⟩).buffer := by
  refine ⟨?_, ?_, ?_⟩
  · rw [Execute, hecho]
  · rw [wrapAll_length, extractNative_length]
  · intro i hi hj
    have hi2 : i < (extractNative args).length := by
      rw [extractNative_length]; exact hj
    rw [wrapAll_get _ _ _ i hi hi2]
    exact extractNative_get args i hi2 hj

/-- Witness for C4: an echo engine on two input handles wrapping native buffers
3 and 4; the outputs wrap 3 and 4 in order, with the call's client and
traceback. -/
theorem execute_echo_roundtrip_witness :
    Execute (fun bufs _ => Except.ok bufs) exW 7
        [⟨0, 3, 9⟩, ⟨0, 4, 9⟩]
      = Except.ok [⟨5, 3, 7⟩, ⟨5, 4, 7⟩] :=
  (execute_echo_roundtrip (fun bufs _ => Except.ok bufs) exW 7
    [⟨0, 3, 9⟩, ⟨0, 4, 9⟩] rfl).1

/-- Claim C5: for every multi-device execution whose engine returns a nested
structure of native output buffers, `ExecuteOnLocalDevices` returns a nested
result with exactly the same group sizes (one inner sequence per computation)
and preserved intra-group ordering. -/
theorem execute_on_local_devices_shape (eng : NestedEngine) (ex : PyExecutable)
    (tb : Nat) (args : List (List PyBuffer)) (outss : List (List Nat))
    (heng : eng (extractNativeNested args) ex.options_ = Except.ok outss) :
    ExecuteOnLocalDevices eng ex tb args
      = Except.ok (wrapAllNested ex.client_ tb outss) ∧
    (wrapAllNested ex.client_ tb outss).length = outss.length ∧
    ∀ (i : Nat) (hi : i < (wrapAllNested ex.client_ tb outss).length)
      (hj : i < outss.length),
      ((wrapAllNested ex.client_ tb outss).get ⟨i, hi⟩).length
        = (outss.get ⟨i, hj⟩).length ∧
      ∀ (k : Nat) (hk : k < ((wrapAllNested ex.client_ tb outss).get ⟨i, hi⟩).length)
        (hm : k < (outss.get ⟨i, hj⟩).length),
        (((wrapAllNested ex.client_ tb outss).get ⟨i, hi⟩).get ⟨k, hk⟩).buffer
          = (outss.get ⟨i, hj⟩).get ⟨k, hm⟩ := by
  refine ⟨?_, wrapAllNested_length _ _ _, ?_⟩
  · rw [ExecuteOnLocalDevices, heng]
  · intro i hi hj
    rw [wrapAllNested_get _ _ _ i hi hj]
    refine ⟨wrapAll_length _ _ _, ?_⟩
    intro k hk hm
    rw [wrapAll_get _ _ _ k hk hm]

/-- Witness for C5: three computations with engine output groups of sizes
`[2, 1, 3]`; the nested result has groups of sizes `[2, 1, 3]` in the same
order, element by element. -/
theorem execute_on_local_devices_shape_witness :
    ExecuteOnLocalDevices (fun _ _ => Except.ok [[10, 11], [12], [13, 14, 15]])
        exW 7 [[⟨0, 1, 9⟩, ⟨0, 2, 9⟩], [⟨0, 3, 9⟩], [⟨0, 4, 9⟩, ⟨0, 5, 9⟩, ⟨0, 6, 9⟩]]
      = Except.ok [[⟨5, 10, 7⟩, ⟨5, 11, 7⟩], [⟨5, 12, 7⟩],
          [⟨5, 13, 7⟩, ⟨5, 14, 7⟩, ⟨5, 15, 7⟩]] ∧
    ((wrapAllNested 5 7 [[10, 11], [12], [13, 14, 15]]).get ⟨2, by decide⟩).length = 3 := by
  have h := execute_on_local_devices_shape
    (fun _ _ => Except.ok [[10, 11], [12], [13, 14, 15]]) exW 7
    [[⟨0, 1, 9⟩, ⟨0, 2, 9⟩], [⟨0, 3, 9⟩], [⟨0, 4, 9⟩, ⟨0, 5, 9⟩, ⟨0, 6, 9⟩]]
    [[10, 11], [12], [13, 14, 15]] rfl
  exact ⟨h.1, (h.2.2 2 (by decide) (by decide)).1⟩

/-- Claim C6: for every execution call (Direct, Wrapped-single, or
Wrapped-multi-device), if the execution engine reports a failure, the dispatcher
returns exactly that engine failure as a single error value with no output
buffer handles, and leaves the client registry and the executable's state
(hence its registry membership) unchanged. -/
theorem engine_failure_propagates (engD : Engine) (engN : NestedEngine)
    (s : RegState) (ex : PyExecutable) (tb : Nat) (argsD : List Nat)
    (args : List PyBuffer) (argss : List (List PyBuffer)) (e1 e2 e3 : Nat)
    (h1 : engD argsD ex.options_ = Except.error e1)
    (h2 : engD (extractNative args) ex.options_ = Except.error e2)
    (h3 : engN (extractNativeNested argss) ex.options_ = Except.error e3) :
    PjRtExecuteFull engD s ex tb argsD = (Except.error e1, s, ex) ∧
    ExecuteFull engD s ex tb args = (Except.error e2, s, ex) ∧
    ExecuteOnLocalDevicesFull engN s ex tb argss = (Except.error e3, s, ex) := by
  refine ⟨?_, ?_, ?_⟩
  · show (PjRtExecute engD ex tb argsD, s, ex) = (Except.error e1, s, ex)
    rw [PjRtExecute, h1]
  · show (Execute engD ex tb args, s, ex) = (Except.error e2, s, ex)
    rw [Execute, h2]
  · show (ExecuteOnLocalDevices engN ex tb argss, s, ex) = (Except.error e3, s, ex)
    rw [ExecuteOnLocalDevices, h3]

/-- Witness for C6: engines that fail with codes 11, 12, 13. -/
theorem engine_failure_propagates_witness :
    PjRtExecuteFull (fun _ _ => Except.error 11) (repList [0]) exW 7 [3]
      = (Except.error 11, repList [0], exW) ∧
    ExecuteFull (fun _ _ => Except.error 11) (repList [0]) exW 7 [⟨0, 3, 9⟩]
      = (Except.error 11, repList [0], exW) ∧
    ExecuteOnLocalDevicesFull (fun _ _ => Except.error 13) (repList [0]) exW 7
        [[⟨0, 3, 9⟩]]
      = (Except.error 13, repList [0], exW) :=
  engine_failure_propagates (fun _ _ => Except.error 11) (fun _ _ => Except.error 13)
    (repList [0]) exW 7 [3] [⟨0, 3, 9⟩] [[⟨0, 3, 9⟩]] 11 11 13 rfl rfl rfl

/-- Claim C7: for every successful execution call (any of the three entry
points), every output buffer handle carries the identical traceback token — the
one captured once for the call after the engine returns — including across
computation groups in the multi-device variant. -/
theorem traceback_shared_per_call (engD : Engine) (engN : NestedEngine)
    (ex : PyExecutable) (tb : Nat) (argsD : List Nat) (args : List PyBuffer)
    (argss : List (List PyBuffer)) :
    (∀ outs, PjRtExecute engD ex tb argsD = Except.ok outs →
      ∀ b ∈ outs, b.traceback = tb) ∧
    (∀ outs, Execute engD ex tb args = Except.ok outs →
      ∀ b ∈ outs, b.traceback = tb) ∧
    (∀ outss, ExecuteOnLocalDevices engN ex tb argss = Except.ok outss →
      ∀ g ∈ outss, ∀ b ∈ g, b.traceback = tb) := by
  refine ⟨?_, ?_, ?_⟩
  · intro outs houts
    rw [PjRtExecute] at houts
    cases heng : engD argsD ex.options_ with
    | error e =>
      rw [heng] at houts
      exact Except.noConfusion houts
    | ok bufs =>
      rw [heng] at houts
      obtain rfl : wrapAll ex.client_ tb bufs = outs := Except.ok.inj houts
      exact mem_wrapAll_traceback _ _ _
  · intro outs houts
    rw [Execute] at houts
    cases heng : engD (extractNative args) ex.options_ with
    | error e =>
      rw [heng] at houts
      exact Except.noConfusion houts
    | ok bufs =>
      rw [heng] at houts
      obtain rfl : wrapAll ex.client_ tb bufs = outs := Except.ok.inj houts
      exact mem_wrapAll_traceback _ _ _
  · intro outss houtss
    rw [ExecuteOnLocalDevices] at houtss
    cases heng : engN (extractNativeNested argss) ex.options_ with
    | error e =>
      rw [heng] at houtss
      exact Except.noConfusion houtss
    | ok bufss =>
      rw [heng] at houtss
      obtain rfl : wrapAllNested ex.client_ tb bufss = outss := Except.ok.inj houtss
      exact mem_wrapAllNested_traceback _ _ _

/-- Witness for C7: a call producing two outputs; the second output's traceback
is the call's token 7. -/
theorem traceback_shared_per_call_witness : (⟨5, 4, 7⟩ : PyBuffer).traceback = 7 :=
  (traceback_shared_per_call (fun _ _ => Except.ok [3, 4]) (fun _ _ => Except.ok [])
      exW 7 [] [] []).2.1
    [⟨5, 3, 7⟩, ⟨5, 4, 7⟩] rfl ⟨5, 4, 7⟩ (by decide)

/-- Claim C8: the buffer bridge maps a sequence of host buffer handles to the
sequence of native buffer pointers they wrap, with the same length, order, and
multiplicity (duplicates passed through unchanged). -/
theorem extract_native_bridge (args : List PyBuffer) :
    (extractNative args).length = args.length ∧
    ∀ (i : Nat) (hi : i < (extractNative args).length) (hj : i < args.length),
      (extractNative args).get ⟨i, hi⟩ = (args.get ⟨i, hj⟩).buffer :=
  ⟨extractNative_length args, extractNative_get args⟩

/-- Witness for C8 on handles with a duplicated native buffer 3. -/
theorem extract_native_bridge_witness :
    (extractNative [⟨0, 3, 9⟩, ⟨0, 3, 9⟩, ⟨1, 5, 2⟩]).length = 3 ∧
    (extractNative [⟨0, 3, 9⟩, ⟨0, 3, 9⟩, ⟨1, 5, 2⟩]).get ⟨1, by decide⟩ = 3 := by
  have h := extract_native_bridge [⟨0, 3, 9⟩, ⟨0, 3, 9⟩, ⟨1, 5, 2⟩]
  exact ⟨h.1, h.2 1 (by decide) (by decide)⟩

/-- Claim C9: every execution call (any of the three entry points) leaves the
executable's own fields — dispatch options, fingerprint, compiled-program
handle, owning-client reference, and its `prev`/`next` registry links — and the
client's registry unchanged, whether the call succeeds or fails: the C++ bodies
contain no write to either. -/
theorem executable_fields_frame (engD : Engine) (engN : NestedEngine) (s : RegState)
    (ex : PyExecutable) (tb : Nat) (argsD : List Nat) (args : List PyBuffer)
    (argss : List (List PyBuffer)) :
    (PjRtExecuteFull engD s ex tb argsD).2 = (s, ex) ∧
    (ExecuteFull engD s ex tb args).2 = (s, ex) ∧
    (ExecuteOnLocalDevicesFull engN s ex tb argss).2 = (s, ex) :=
  ⟨rfl, rfl, rfl⟩

/-- Claim C10: the device-list accessor returns exactly one entry per device of
the compiled program's engine-side device list, preserving order and count, and
every entry pairs the device with the executable's own owning client. -/
theorem local_devices_spec (ex : PyExecutable) :
    (LocalDevices ex).length = ex.executable_.local_devices.length ∧
    ∀ (i : Nat) (hi : i < (LocalDevices ex).length)
      (hj : i < ex.executable_.local_devices.length),
      (LocalDevices ex).get ⟨i, hi⟩
        = (ex.client_, ex.executable_.local_devices.get ⟨i, hj⟩) :=
  ⟨LocalDevicesLoop_length _ _, LocalDevicesLoop_get _ _⟩

/-- Witness for C10 on the concrete executable with devices `[20, 21]` owned by
client 5. -/
theorem local_devices_spec_witness :
    (LocalDevices exW).length = 2 ∧
    (LocalDevices exW).get ⟨1, by decide⟩ = (5, 21) := by
  have h := local_devices_spec exW
  exact ⟨h.1, h.2 1 (by decide) (by decide)⟩

end Xla
